import Mathlib

/-!
Verification of the socketclaude server core against its specification.

The development shallowly embeds the parts of the source that the checked
properties are about:

* `RelayCrypto` — `src/server/src/relay-crypto.ts` (`encrypt`, `decrypt`,
  base64 coding).  The NaCl box primitive and Node's `Buffer`/`TextEncoder`
  are external dependencies, modelled from the spec where noted.
* `Relay` — the relay client (`RelayClient` state machine: connection
  lifecycle, key exchange, encrypted-frame handling, reconnect backoff).
* `Store` — the session store's history-entry shape, `markQuestionAnswered`
  and `cleanupPendingToolCalls`.
* `Session` — `ClaudeSession` (tool-result chunking, pending questions,
  `stopTask` deduplication, `injectMessage`, the `runQuery` error path).

Strings and byte arrays are modelled as `List Char` / `List Nat`; wall-clock
timestamps are not modelled (they are opaque passthrough data).
-/

namespace RelayCrypto

/-- Modelled from the spec: Node's `Buffer.toString("base64")` (an external
built-in, not in `src/`).  Base64 maps each group of three input bytes to
four six-bit values; the final bijection from six-bit values to ASCII
characters is elided, so the code word is the list of sextets. -/
def toBase64 : List Nat → List Nat
  | [] => []
  | [b0] => [b0 / 4, b0 % 4 * 16]
  | [b0, b1] => [b0 / 4, b0 % 4 * 16 + b1 / 16, b1 % 16 * 4]
  | b0 :: b1 :: b2 :: rest =>
      b0 / 4 :: (b0 % 4 * 16 + b1 / 16) :: (b1 % 16 * 4 + b2 / 64) :: b2 % 64 :: toBase64 rest

/-- Modelled from the spec: Node's `Buffer.from(s, "base64")` (external).
Inverse of `toBase64`: each group of four sextets yields three bytes, a
trailing group of three sextets two bytes, a trailing pair one byte. -/
def fromBase64 : List Nat → List Nat
  | [s0, s1] => [s0 * 4 + s1 / 16]
  | [s0, s1, s2] => [s0 * 4 + s1 / 16, s1 % 16 * 16 + s2 / 4]
  | s0 :: s1 :: s2 :: s3 :: rest =>
      (s0 * 4 + s1 / 16) :: (s1 % 16 * 16 + s2 / 4) :: (s2 % 4 * 64 + s3) :: fromBase64 rest
  | _ => []

/-- Modelled from the spec: X25519 public-key derivation
(`nacl.box.keyPair`, external).  The spec asks for elliptic-curve key
agreement; the derivation is idealized as an injective map on scalars. -/
def curvePub (secretKey : Nat) : Nat := secretKey

/-- Modelled from the spec: the Diffie-Hellman shared secret of the box
construction.  Both directions of a matching key pair derive the same
value: the secret depends only on the unordered pair of scalars, coded
injectively for scalars below `2 ^ 256` (32-byte keys). -/
def sharedKey (theirPublicKey mySecretKey : Nat) : Nat :=
  min theirPublicKey mySecretKey + 2 ^ 256 * max theirPublicKey mySecretKey

/-- Modelled from the spec: one keystream byte of the authenticated
symmetric construction, derived from the shared secret, the nonce and the
byte position. -/
def keystreamByte (shared nonceVal i : Nat) : Nat := (shared + nonceVal + i) % 256

/-- Big-endian value of a byte string (used to feed the nonce into the
keystream). -/
def bytesToNat (l : List Nat) : Nat := l.foldl (fun a b => a * 256 + b) 0

/-- XOR a byte string against the keystream starting at position `i`.
Self-inverse, which is what makes the stream layer decryptable. -/
def xorKeystream (shared nonceVal : Nat) : Nat → List Nat → List Nat
  | _, [] => []
  | i, b :: rest => (b ^^^ keystreamByte shared nonceVal i) :: xorKeystream shared nonceVal (i + 1) rest

/-- Fixed-width little-endian base-256 encoding of a number (`w` bytes). -/
def toBytesFixed : Nat → Nat → List Nat
  | 0, _ => []
  | w + 1, x => x % 256 :: toBytesFixed w (x / 256)

/-- Modelled from the spec: `nacl.box` (external).  The authenticated
ciphertext is an idealized authenticator (a 64-byte encoding of the shared
secret) followed by the keystream-encrypted message. -/
def naclBox (message nonce : List Nat) (theirPublicKey mySecretKey : Nat) : List Nat :=
  let shared := sharedKey theirPublicKey mySecretKey
  toBytesFixed 64 shared ++ xorKeystream shared (bytesToNat nonce) 0 message

/-- Modelled from the spec: `nacl.box.open` (external).  Recomputes the
authenticator from the receiver's keys and returns `none` (the source's
`null`) when it does not match. -/
def naclBoxOpen (ciphertext nonce : List Nat) (theirPublicKey mySecretKey : Nat) :
    Option (List Nat) :=
  let shared := sharedKey theirPublicKey mySecretKey
  if ciphertext.take 64 = toBytesFixed 64 shared then
    some (xorKeystream shared (bytesToNat nonce) 0 (ciphertext.drop 64))
  else
    none

/-- Structure `EncryptedEnvelope` from `relay-crypto.ts`: base64 nonce `n` and base64
ciphertext `c`. -/
structure EncryptedEnvelope where
  n : List Nat
  c : List Nat
deriving DecidableEq, Repr

/-- Function `encrypt` from `relay-crypto.ts`.  The source draws the nonce from
`nacl.randomBytes`; randomness is modelled by taking the nonce as an
explicit argument.  `TextEncoder` (UTF-8, external) is modelled as the
identity on byte strings, per the spec's "opaque byte payloads". -/
def encrypt (message nonce : List Nat) (theirPublicKey mySecretKey : Nat) :
    EncryptedEnvelope :=
  { n := toBase64 nonce
    c := toBase64 (naclBox message nonce theirPublicKey mySecretKey) }

/-- Function `decrypt` from `relay-crypto.ts`.  The source throws on a `null` result
from `nacl.box.open`; throwing is modelled as `Except.error` with the
source's message. -/
def decrypt (envelope : EncryptedEnvelope) (theirPublicKey mySecretKey : Nat) :
    Except String (List Nat) :=
  let nonce := fromBase64 envelope.n
  let ciphertext := fromBase64 envelope.c
  match naclBoxOpen ciphertext nonce theirPublicKey mySecretKey with
  | some plaintext => Except.ok plaintext
  | none => Except.error "Decryption failed — invalid key or corrupted message"

end RelayCrypto

namespace Relay

open RelayCrypto

/-- Type `RelayStatus` from `relay-client.ts`. -/
inductive RelayStatus where
  | disconnected
  | connecting
  | waiting_for_peer
  | paired
  | error
deriving DecidableEq, Repr

/-- The mutable fields of `RelayClient` (relay-client.ts).  `wsOpen` models
"`this.ws` is non-null and open"; `virtualOpen` is the `readyState` of the
`VirtualRelaySocket`.  The long-lived `keyPair.secretKey` is immutable and
passed to the step function separately. -/
structure RelayClientState where
  wsOpen : Bool
  phonePublicKey : Option Nat
  status : RelayStatus
  reconnectDelay : Nat
  closed : Bool
  virtualOpen : Bool
deriving DecidableEq, Repr

/-- The initial field values of a fresh `RelayClient`. -/
def initialRelayState : RelayClientState :=
  { wsOpen := false
    phonePublicKey := none
    status := RelayStatus.disconnected
    reconnectDelay := 1000
    closed := false
    virtualOpen := false }

/-- Events delivered to the relay client: the explicit `connect` and `close`
calls, socket lifecycle callbacks, and the parsed relay frames dispatched
by `handleRelayMessage`.  A `keyExchange` event carries the already
base64-decoded peer key; an `encryptedFrame` carries the parsed `{n, c}`
envelope. -/
inductive RelayEvent where
  | connectCalled
  | closeCalled
  | socketOpen
  | socketClose
  | peerConnected
  | peerDisconnected
  | keyExchange (pubkey : Nat)
  | encryptedFrame (env : EncryptedEnvelope)
  | unknownFrame
deriving DecidableEq, Repr

/-- Observable effects of one event: `onStatusChange` callbacks, the
plaintext `key_exchange_ack`, decrypted frames handed to `onMessage` (the
source additionally JSON-parses the plaintext; that layer is elided), and
`setTimeout` reconnect scheduling with its delay. -/
inductive RelayOutput where
  | statusChange (s : RelayStatus)
  | sendAck
  | deliverMessage (plaintext : List Nat)
  | scheduleReconnect (delay : Nat)
deriving DecidableEq, Repr

/-- Method `scheduleReconnect` from `relay-client.ts`: no-op when closed; otherwise
set status `disconnected`, schedule `connect` after the current delay, then
double the delay capped at 30000 ms. -/
def scheduleReconnect (s : RelayClientState) : RelayClientState × List RelayOutput :=
  if s.closed then (s, [])
  else
    ({ s with status := RelayStatus.disconnected
              reconnectDelay := min (s.reconnectDelay * 2) 30000 },
     [RelayOutput.statusChange RelayStatus.disconnected,
      RelayOutput.scheduleReconnect s.reconnectDelay])

/-- Method `handleRelayMessage` from `relay-client.ts`, together with the
explicit `connect`/`close` methods and the socket `open`/`close` handlers
installed by `connect`.  Total by construction: the source wraps frame
handling in `try`/`catch`, so no event throws out of the handler. -/
def relayStep (secretKey : Nat) (s : RelayClientState) (e : RelayEvent) :
    RelayClientState × List RelayOutput :=
  match e with
  | RelayEvent.connectCalled =>
      if s.closed then (s, [])
      else ({ s with status := RelayStatus.connecting },
        [RelayOutput.statusChange RelayStatus.connecting])
  | RelayEvent.closeCalled =>
      ({ s with closed := true, wsOpen := false, status := RelayStatus.disconnected },
       [RelayOutput.statusChange RelayStatus.disconnected])
  | RelayEvent.socketOpen =>
      ({ s with wsOpen := true
                reconnectDelay := 1000
                status := RelayStatus.waiting_for_peer },
       [RelayOutput.statusChange RelayStatus.waiting_for_peer])
  | RelayEvent.socketClose =>
      let s1 : RelayClientState :=
        { s with wsOpen := false
                 phonePublicKey := none
                 virtualOpen := false
                 status := RelayStatus.disconnected }
      let r := scheduleReconnect s1
      (r.1, RelayOutput.statusChange RelayStatus.disconnected :: r.2)
  | RelayEvent.peerConnected =>
      ({ s with status := RelayStatus.waiting_for_peer },
       [RelayOutput.statusChange RelayStatus.waiting_for_peer])
  | RelayEvent.peerDisconnected =>
      ({ s with phonePublicKey := none
                virtualOpen := false
                status := RelayStatus.waiting_for_peer },
       [RelayOutput.statusChange RelayStatus.waiting_for_peer])
  | RelayEvent.keyExchange pubkey =>
      ({ s with phonePublicKey := some pubkey
                status := RelayStatus.paired
                virtualOpen := true },
       [RelayOutput.statusChange RelayStatus.paired, RelayOutput.sendAck])
  | RelayEvent.encryptedFrame env =>
      match s.phonePublicKey with
      | none => (s, [])
      | some k =>
          match decrypt env k secretKey with
          | Except.ok plaintext => (s, [RelayOutput.deliverMessage plaintext])
          | Except.error _ => (s, [])
  | RelayEvent.unknownFrame => (s, [])

/-- Run the relay client from its initial state over a list of events,
discarding outputs. -/
def runRelay (secretKey : Nat) (events : List RelayEvent) : RelayClientState :=
  events.foldl (fun s e => (relayStep secretKey s e).1) initialRelayState

/-- The reconnect delays scheduled by `n` consecutive socket-close events
(each failed connection attempt ends in the `close` handler, which calls
`scheduleReconnect`). -/
def closeDelays (secretKey : Nat) (s : RelayClientState) : Nat → List Nat
  | 0 => []
  | n + 1 =>
      let r := relayStep secretKey s RelayEvent.socketClose
      (r.2.filterMap fun o =>
        match o with
        | RelayOutput.scheduleReconnect d => some d
        | _ => none) ++ closeDelays secretKey r.1 n

end Relay

namespace Store

/-- The `role` field of a `HistoryEntry` (protocol.ts). -/
inductive Role where
  | user
  | assistant
  | tool_call
  | tool_result
  | question
deriving DecidableEq, Repr

/-- Structure `HistoryEntry` from protocol.ts, restricted to the fields the session
store reads or writes.  Timestamps are opaque wall-clock strings and are
not modelled; `toolInput` and the question payload are likewise opaque
passthrough data. -/
structure HistoryEntry where
  role : Role
  content : List Char
  toolUseId : Option String := none
  toolOutput : Option (List Char) := none
  questionId : Option Nat := none
  answered : Bool := false
deriving DecidableEq, Repr

/-- JavaScript truthiness of an optional id string: `undefined` and the
empty string are both falsy in the source's `entry.toolUseId &&` checks. -/
def truthyId : Option String → Bool
  | none => false
  | some id => !(id == "")

/-- Function `markQuestionAnswered` from session-store.ts: set `answered := true` on
the first history entry with role `question` and the given question id
(`entries.find`), leaving everything else unchanged. -/
def markQuestionAnswered : List HistoryEntry → Nat → List HistoryEntry
  | [], _ => []
  | e :: rest, qid =>
      if e.role == Role.question && e.questionId == some qid then
        { e with answered := true } :: rest
      else
        e :: markQuestionAnswered rest qid

/-- The synthesized empty `tool_result` entry that `cleanupPendingToolCalls`
pushes for an unanswered `tool_call`. -/
def synthResult (id : String) : HistoryEntry :=
  { role := Role.tool_result
    content := []
    toolUseId := some id
    toolOutput := some [] }

/-- The `resultIds` set of `cleanupPendingToolCalls`: ids of `tool_result`
entries whose `toolUseId` is truthy. -/
def resultIds (entries : List HistoryEntry) : List String :=
  entries.filterMap fun e =>
    if e.role == Role.tool_result && truthyId e.toolUseId then e.toolUseId else none

/-- Whether `cleanupPendingToolCalls` synthesizes a result for this entry: a
`tool_call` with truthy id that is missing from `resultIds`. -/
def needsResult (ids : List String) (e : HistoryEntry) : Bool :=
  e.role == Role.tool_call && truthyId e.toolUseId &&
    !(ids.contains (e.toolUseId.getD ""))

/-- The per-file body of `cleanupPendingToolCalls` (session-store.ts).  The
source iterates the array while pushing; pushed entries have role
`tool_result` and never satisfy the push condition, so the appended suffix
is exactly one synthesized result per qualifying original entry, in the
original order.  Returns the new entry list and the `modified` flag (the
file is rewritten only when the flag is set). -/
def cleanupEntries (entries : List HistoryEntry) : List HistoryEntry × Bool :=
  let ids := resultIds entries
  let synth :=
    ((entries.filter (needsResult ids)).filterMap (fun e => e.toolUseId)).map synthResult
  (entries ++ synth, !synth.isEmpty)

end Store

namespace Session

open Store

/-- Constant `CHUNK_THRESHOLD` from `ClaudeSession.runQuery`: only chunk tool output
longer than this. -/
def CHUNK_THRESHOLD : Nat := 500

/-- Constant `CHUNK_SIZE` from `ClaudeSession.runQuery`: characters per chunk. -/
def CHUNK_SIZE : Nat := 200

/-- One `tool_result_chunk` message (toolUseId and sessionId passthrough
fields elided). -/
structure ToolResultChunk where
  chunkIndex : Nat
  content : List Char
  done : Bool
deriving DecidableEq, Repr

/-- The chunking loop of `ClaudeSession.runQuery`:
`for (let i = 0; i < output.length; i += CHUNK_SIZE)` sends
`output.slice(i, i + CHUNK_SIZE)` tagged with an incrementing `chunkIdx`
and `done := i + CHUNK_SIZE >= output.length`.  Phrased on the remaining
suffix `rest = output.drop i`. -/
def chunkLoop (rest : List Char) (idx : Nat) : List ToolResultChunk :=
  if rest.length = 0 then []
  else if rest.length ≤ CHUNK_SIZE then [⟨idx, rest, true⟩]
  else ⟨idx, rest.take CHUNK_SIZE, false⟩ :: chunkLoop (rest.drop CHUNK_SIZE) (idx + 1)
termination_by rest.length
decreasing_by
  simp only [List.length_drop, CHUNK_SIZE]
  omega

/-- A tool-result transmission: either one whole `tool_result` message or a
sequence of `tool_result_chunk` messages. -/
inductive ToolResultMessage where
  | whole (output : List Char)
  | chunk (c : ToolResultChunk)
deriving DecidableEq, Repr

/-- The tool-result branch of `ClaudeSession.runQuery`: output longer than
`CHUNK_THRESHOLD` is streamed as chunks, anything else is sent whole. -/
def emitToolResult (output : List Char) : List ToolResultMessage :=
  if output.length > CHUNK_THRESHOLD then
    (chunkLoop output 0).map ToolResultMessage.chunk
  else
    [ToolResultMessage.whole output]

end Session

namespace Session

open Store

/-- Outward effects of the session engine: messages sent on the transport
(`this.send`), pending-question callback resolutions, SDK calls
(`activeQuery.stopTask`, `activeQuery.streamInput`) and `runQuery`
invocations from the connection handler.  Payload fields not read by any
checked property are elided. -/
inductive SessionOut where
  | sessionCreated (sid : String)
  | textEvent (t : List Char)
  | toolCallEvent (name : String) (toolUseId : String)
  | toolResult (toolUseId : String) (m : ToolResultMessage)
  | resultEvent (content : List Char)
  | errorEvent (message : String)
  | questionEvent (qid : Nat)
  | invokeCallback (qid : Nat) (answers : List (String × String))
  | sdkStopTask (sdkTaskId : String)
  | injectTurn (text : List Char)
  | startQuery (text : List Char)
deriving DecidableEq, Repr

/-- The fields of `ClaudeSession` (claude-session.ts) that the checked
properties read or write.  `pendingQuestions` holds the keys of the
pending-question `Map` in insertion order (the single-resolution callbacks
are modelled by `SessionOut.invokeCallback` outputs); question ids are the
counter values, the source's constant `"q"` prefix being elided.
`activeQuery` models `this.activeQuery !== null`.  `history` is the
session's persisted history file, empty until a session id is assigned
(all `appendHistory` call sites are gated on `this.sessionId`). -/
structure SessionState where
  sessionId : Option String := none
  pendingQuestions : List Nat := []
  questionCounter : Nat := 0
  isRunning : Bool := false
  activeQuery : Bool := false
  stoppedTasks : List String := []
  backgroundTaskToolUseIds : List String := []
  taskIdToToolUseId : List (String × String) := []
  streamingText : List Char := []
  history : List HistoryEntry := []
deriving DecidableEq, Repr

/-- A freshly constructed `ClaudeSession`. -/
def initialSessionState : SessionState := {}

/-- The `AskUserQuestion` / `ExitPlanMode` interception inside `canUseTool`:
allocate the next question id, send the question message, persist a
`question` history entry when a session id exists, then register the
pending resolution callback. -/
def askQuestion (s : SessionState) : SessionState × List SessionOut :=
  let qid := s.questionCounter + 1
  let s1 : SessionState := { s with questionCounter := qid }
  let s2 : SessionState :=
    match s1.sessionId with
    | some _ =>
        { s1 with history := s1.history ++ [{ role := Role.question, content := [], questionId := some qid }] }
    | none => s1
  ({ s2 with pendingQuestions := s2.pendingQuestions ++ [qid] },
   [SessionOut.questionEvent qid])

/-- Method `ClaudeSession.resolveQuestion`: look the id up in the pending map; if
present, invoke the stored callback with the answers, delete the entry,
and (when a session id exists) mark the persisted question entry answered;
otherwise do nothing. -/
def resolveQuestion (s : SessionState) (qid : Nat) (answers : List (String × String)) :
    SessionState × List SessionOut :=
  if qid ∈ s.pendingQuestions then
    let s1 : SessionState := { s with pendingQuestions := s.pendingQuestions.erase qid }
    let s2 : SessionState :=
      match s1.sessionId with
      | some _ => { s1 with history := markQuestionAnswered s1.history qid }
      | none => s1
    (s2, [SessionOut.invokeCallback qid answers])
  else
    (s, [])

/-- The reverse lookup inside `ClaudeSession.stopTask`: scan
`_taskIdToToolUseId` in insertion order for the first entry whose value is
the caller-facing id and return its key (the SDK agent id), falling back
to the argument itself. -/
def reverseLookupTaskId (m : List (String × String)) (taskId : String) : String :=
  match m.find? (fun p => p.2 == taskId) with
  | some p => p.1
  | none => taskId

/-- Method `ClaudeSession.stopTask`: drop the call if the id was already stopped;
otherwise record it, and if a query is active, issue one asynchronous SDK
cancellation for the reverse-translated id (fire and forget — the SDK
promise's resolution is not modelled). -/
def stopTask (s : SessionState) (taskId : String) : SessionState × List SessionOut :=
  if taskId ∈ s.stoppedTasks then (s, [])
  else
    let s1 : SessionState := { s with stoppedTasks := s.stoppedTasks ++ [taskId] }
    if s1.activeQuery = false then (s1, [])
    else (s1, [SessionOut.sdkStopTask (reverseLookupTaskId s1.taskIdToToolUseId taskId)])

/-- The user history entry `injectMessage` persists. -/
def mkUserEntry (text : List Char) : HistoryEntry :=
  { role := Role.user, content := text }

/-- Method `ClaudeSession.injectMessage`: no-op unless a query object exists and
the running flag is set; otherwise append the text to the persisted
history (when a session id exists) and stream exactly one user message
into the in-flight query. -/
def injectMessage (s : SessionState) (text : List Char) : SessionState × List SessionOut :=
  if s.activeQuery = false ∨ s.isRunning = false then (s, [])
  else
    let s1 : SessionState :=
      match s.sessionId with
      | some _ => { s with history := s.history ++ [mkUserEntry text] }
      | none => s
    (s1, [SessionOut.injectTurn text])

/-- The `prompt` case of `createConnectionHandler` (server entry point): if
the session is already running the text is injected inline and no second
query is started; otherwise `runQuery` is invoked (modelled as a
`startQuery` output). -/
def handlePrompt (s : SessionState) (text : List Char) : SessionState × List SessionOut :=
  if s.isRunning then injectMessage s text
  else (s, [SessionOut.startQuery text])

/-- The agent-stream message shapes `ClaudeSession.runQuery` dispatches on,
restricted to the fields the checked properties read.  `toolResultMsg`
carries the already-extracted output text of one `tool_result` block. -/
inductive AgentMessage where
  | systemInit (sid : String)
  | textDelta (t : List Char)
  | assistantText (t : List Char)
  | toolUse (name : String) (toolUseId : String)
  | toolResultMsg (toolUseId : String) (output : List Char)
  | resultMsg (content : List Char)
  | otherMsg
deriving DecidableEq, Repr

/-- Function `appendHistory`, as called by the query loop: every call site is gated
on `this.sessionId` being set. -/
def appendIfSession (s : SessionState) (e : HistoryEntry) : SessionState :=
  match s.sessionId with
  | some _ => { s with history := s.history ++ [e] }
  | none => s

/-- One iteration of the `for await` loop of `ClaudeSession.runQuery`,
restricted to the behaviour the checked properties are about: the init
message assigns the session id; text deltas accumulate the streaming
buffer; a completed assistant message flushes and resets it; tool calls
and tool results are forwarded and persisted (large tool output chunked by
`emitToolResult`); the result message emits the outward result event. -/
def processMessage (s : SessionState) (m : AgentMessage) : SessionState × List SessionOut :=
  match m with
  | AgentMessage.systemInit sid =>
      ({ s with sessionId := some sid }, [SessionOut.sessionCreated sid])
  | AgentMessage.textDelta t =>
      ({ s with streamingText := s.streamingText ++ t }, [SessionOut.textEvent t])
  | AgentMessage.assistantText t =>
      (appendIfSession { s with streamingText := [] } { role := Role.assistant, content := t }, [])
  | AgentMessage.toolUse name id =>
      (appendIfSession s { role := Role.tool_call, content := [], toolUseId := some id },
       [SessionOut.toolCallEvent name id])
  | AgentMessage.toolResultMsg id output =>
      (appendIfSession s
         { role := Role.tool_result, content := [], toolUseId := some id, toolOutput := some output },
       (emitToolResult output).map (SessionOut.toolResult id))
  | AgentMessage.resultMsg c => (s, [SessionOut.resultEvent c])
  | AgentMessage.otherMsg => (s, [])

/-- Fold `processMessage` over a message sequence, concatenating outputs. -/
def processAll (s : SessionState) : List AgentMessage → SessionState × List SessionOut
  | [] => (s, [])
  | m :: rest =>
      let r := processMessage s m
      let r2 := processAll r.1 rest
      (r2.1, r.2 ++ r2.2)

/-- Method `ClaudeSession.runQuery` at the granularity of its `try`/`catch`/
`finally`: set the running flags and reset the streaming buffer, consume
the stream, and on an error surfacing from it (`streamError`) stop
processing, emit a single outward error event, and in all cases clear the
running flags.  `messages` is the prefix of the stream consumed before the
error (all of it when `streamError` is `none`). -/
def runQuery (s : SessionState) (messages : List AgentMessage) (streamError : Option String) :
    SessionState × List SessionOut :=
  let s0 : SessionState := { s with isRunning := true, activeQuery := true, streamingText := [] }
  let r := processAll s0 messages
  let outs :=
    match streamError with
    | some e => r.2 ++ [SessionOut.errorEvent e]
    | none => r.2
  ({ r.1 with isRunning := false, activeQuery := false }, outs)

/-- Recognizer for outward error events. -/
def isErrorEvent : SessionOut → Bool
  | SessionOut.errorEvent _ => true
  | _ => false

/-- Operation `Map.set` on the `_taskIdToToolUseId` association (JavaScript `Map`
semantics: update in place if the key exists, else append). -/
def mapSet (m : List (String × String)) (k v : String) : List (String × String) :=
  if m.any (fun p => p.1 == k) then
    m.map (fun p => if p.1 == k then (k, v) else p)
  else m ++ [(k, v)]

/-- The operations that can act on one `ClaudeSession` instance, for
reachability arguments: question interception, question resolution,
`stopTask`, `injectMessage`, one stream message, the background-task map
updates, and the `runQuery` entry (`beginQuery`) and `finally`
(`endQuery`) flag transitions. -/
inductive SessionOp where
  | ask
  | resolve (qid : Nat) (answers : List (String × String))
  | stop (taskId : String)
  | inject (text : List Char)
  | agentMsg (m : AgentMessage)
  | noteTaskMapping (agentId toolUseId : String)
  | dropTaskMapping (agentId : String)
  | beginQuery
  | endQuery
deriving Repr

/-- State effect of one session operation. -/
def applyOp (s : SessionState) : SessionOp → SessionState
  | SessionOp.ask => (askQuestion s).1
  | SessionOp.resolve qid ans => (resolveQuestion s qid ans).1
  | SessionOp.stop t => (stopTask s t).1
  | SessionOp.inject t => (injectMessage s t).1
  | SessionOp.agentMsg m => (processMessage s m).1
  | SessionOp.noteTaskMapping a t => { s with taskIdToToolUseId := mapSet s.taskIdToToolUseId a t }
  | SessionOp.dropTaskMapping a =>
      { s with taskIdToToolUseId := s.taskIdToToolUseId.filter (fun p => !(p.1 == a)) }
  | SessionOp.beginQuery => { s with isRunning := true, activeQuery := true, streamingText := [] }
  | SessionOp.endQuery => { s with isRunning := false, activeQuery := false }

/-- Run a fresh session through a sequence of operations. -/
def runOps (ops : List SessionOp) : SessionState :=
  ops.foldl applyOp initialSessionState

end Session

namespace RelayCrypto

theorem fromBase64_toBase64 (l : List Nat) (h : ∀ b ∈ l, b < 256) :
    fromBase64 (toBase64 l) = l := by
  induction l using toBase64.induct with
  | case1 => rfl
  | case2 b0 =>
      simp only [toBase64, fromBase64, List.cons.injEq, and_true]
      omega
  | case3 b0 b1 =>
      have hb1 : b1 < 256 := h b1 (by simp)
      simp only [toBase64, fromBase64, List.cons.injEq, and_true]
      omega
  | case4 b0 b1 b2 rest ih =>
      have hb1 : b1 < 256 := h b1 (by simp)
      have hb2 : b2 < 256 := h b2 (by simp)
      have ih2 := ih (fun b hb => h b (by simp [hb]))
      simp only [toBase64, fromBase64, List.cons.injEq]
      exact ⟨by omega, by omega, by omega, ih2⟩

theorem xorKeystream_involutive (shared nonceVal : Nat) (i : Nat) (m : List Nat) :
    xorKeystream shared nonceVal i (xorKeystream shared nonceVal i m) = m := by
  induction m generalizing i with
  | nil => rfl
  | cons b rest ih => simp [xorKeystream, Nat.xor_cancel_right, ih]

theorem xorKeystream_lt (shared nonceVal : Nat) (i : Nat) (m : List Nat)
    (h : ∀ b ∈ m, b < 256) : ∀ b ∈ xorKeystream shared nonceVal i m, b < 256 := by
  induction m generalizing i with
  | nil => simp [xorKeystream]
  | cons b rest ih =>
      intro x hx
      simp only [xorKeystream, List.mem_cons] at hx
      rcases hx with rfl | hx
      · have h1 : b < 2 ^ 8 := h b (by simp)
        have h2 : keystreamByte shared nonceVal i < 2 ^ 8 := Nat.mod_lt _ (by norm_num)
        exact Nat.xor_lt_two_pow h1 h2
      · exact ih (i + 1) (fun y hy => h y (by simp [hy])) x hx

theorem toBytesFixed_length (w x : Nat) : (toBytesFixed w x).length = w := by
  induction w generalizing x with
  | zero => rfl
  | succ w ih => simp [toBytesFixed, ih]

theorem toBytesFixed_lt (w x : Nat) : ∀ b ∈ toBytesFixed w x, b < 256 := by
  induction w generalizing x with
  | zero => simp [toBytesFixed]
  | succ w ih =>
      intro b hb
      simp only [toBytesFixed, List.mem_cons] at hb
      rcases hb with rfl | hb
      · exact Nat.mod_lt _ (by norm_num)
      · exact ih (x / 256) b hb

theorem toBytesFixed_inj (w : Nat) (a b : Nat) (ha : a < 256 ^ w) (hb : b < 256 ^ w)
    (h : toBytesFixed w a = toBytesFixed w b) : a = b := by
  induction w generalizing a b with
  | zero => simp only [pow_zero] at ha hb; omega
  | succ w ih =>
      simp only [toBytesFixed, List.cons.injEq] at h
      have ha' : a / 256 < 256 ^ w := by
        rw [Nat.div_lt_iff_lt_mul (by norm_num)]
        calc a < 256 ^ (w + 1) := ha
        _ = 256 ^ w * 256 := by rw [pow_succ]
      have hb' : b / 256 < 256 ^ w := by
        rw [Nat.div_lt_iff_lt_mul (by norm_num)]
        calc b < 256 ^ (w + 1) := hb
        _ = 256 ^ w * 256 := by rw [pow_succ]
      have := ih (a / 256) (b / 256) ha' hb' h.2
      omega

theorem sharedKey_comm (a b : Nat) : sharedKey a b = sharedKey b a := by
  simp [sharedKey, Nat.min_comm, Nat.max_comm]

theorem sharedKey_lt (a b : Nat) (ha : a < 2 ^ 256) (hb : b < 2 ^ 256) :
    sharedKey a b < 256 ^ 64 := by
  have hmin : min a b < 2 ^ 256 := by omega
  have hmax : max a b + 1 ≤ 2 ^ 256 := by omega
  have h2 : 2 ^ 256 * (max a b + 1) ≤ 2 ^ 256 * 2 ^ 256 :=
    Nat.mul_le_mul_left _ hmax
  rw [Nat.mul_add, Nat.mul_one] at h2
  have h3 : (256 : Nat) ^ 64 = 2 ^ 256 * 2 ^ 256 := by norm_num
  rw [sharedKey, h3]
  linarith

theorem naclBox_lt (m nonce : List Nat) (tp sk : Nat) (hm : ∀ b ∈ m, b < 256) :
    ∀ b ∈ naclBox m nonce tp sk, b < 256 := by
  intro b hb
  simp only [naclBox, List.mem_append] at hb
  rcases hb with hb | hb
  · exact toBytesFixed_lt 64 _ b hb
  · exact xorKeystream_lt _ _ 0 m hm b hb

/-- C2: for every plaintext byte string (including the empty string) and
every matching key pair, decrypting the result of `encrypt` with the
peer's keys returns the original plaintext, and decrypting an envelope
with keys that do not derive the encrypting shared secret (a non-matching
key) fails with the distinct decryption error rather than returning any
string.  Byte strings are bounded by 256 and scalars by `2 ^ 256`
(32-byte NaCl keys). -/
theorem encrypt_decrypt_roundtrip (m nonce : List Nat) (skA skB pk' sk' : Nat)
    (hm : ∀ b ∈ m, b < 256) (hn : ∀ b ∈ nonce, b < 256)
    (hA : skA < 2 ^ 256) (hB : skB < 2 ^ 256)
    (hp : pk' < 2 ^ 256) (hs : sk' < 2 ^ 256) :
    decrypt (encrypt m nonce (curvePub skB) skA) (curvePub skA) skB = Except.ok m ∧
    (sharedKey pk' sk' ≠ sharedKey (curvePub skB) skA →
      decrypt (encrypt m nonce (curvePub skB) skA) pk' sk' =
        Except.error "Decryption failed — invalid key or corrupted message") := by
  have hct : fromBase64 (toBase64 (naclBox m nonce (curvePub skB) skA)) =
      naclBox m nonce (curvePub skB) skA :=
    fromBase64_toBase64 _ (naclBox_lt m nonce _ _ hm)
  have hnn : fromBase64 (toBase64 nonce) = nonce := fromBase64_toBase64 _ hn
  have htake : (naclBox m nonce (curvePub skB) skA).take 64 =
      toBytesFixed 64 (sharedKey (curvePub skB) skA) := by
    rw [naclBox]
    exact List.take_left' (toBytesFixed_length _ _)
  have hdrop : (naclBox m nonce (curvePub skB) skA).drop 64 =
      xorKeystream (sharedKey (curvePub skB) skA) (bytesToNat nonce) 0 m := by
    rw [naclBox]
    exact List.drop_left' (toBytesFixed_length _ _)
  constructor
  · have hcomm : sharedKey (curvePub skA) skB = sharedKey (curvePub skB) skA := by
      simp only [curvePub]
      exact sharedKey_comm skA skB
    rw [decrypt]
    simp only [encrypt, hct, hnn, naclBoxOpen, hcomm, htake, hdrop,
      xorKeystream_involutive, if_true, ite_true, eq_self_iff_true]
  · intro hne
    rw [decrypt]
    simp only [encrypt, hct, hnn, naclBoxOpen]
    rw [if_neg]
    intro heq
    rw [htake] at heq
    exact hne (toBytesFixed_inj 64 _ _
      (sharedKey_lt _ _ (by simpa [curvePub] using hB) hA)
      (sharedKey_lt _ _ hp hs) heq).symm

/-- Concrete instance of `encrypt_decrypt_roundtrip`: encrypting the bytes
`[0, 255, 10]` under the key pair `(5, 7)` decrypts back under the peer
keys, and fails under the non-matching secret `11`. -/
theorem encrypt_decrypt_roundtrip_witness :
    decrypt (encrypt [0, 255, 10] [1, 2, 3] (curvePub 7) 5) (curvePub 5) 7 =
      Except.ok [0, 255, 10] ∧
    decrypt (encrypt [0, 255, 10] [1, 2, 3] (curvePub 7) 5) 7 11 =
      Except.error "Decryption failed — invalid key or corrupted message" := by
  have h := encrypt_decrypt_roundtrip [0, 255, 10] [1, 2, 3] 5 7 7 11
    (by decide) (by decide) (by decide) (by decide) (by decide) (by decide)
  exact ⟨h.1, h.2 (by decide)⟩

end RelayCrypto

namespace Relay

open RelayCrypto

theorem relayStep_paired_inv (secretKey : Nat) (s : RelayClientState) (e : RelayEvent)
    (h : s.status = RelayStatus.paired → s.phonePublicKey ≠ none) :
    (relayStep secretKey s e).1.status = RelayStatus.paired →
      (relayStep secretKey s e).1.phonePublicKey ≠ none := by
  cases e with
  | connectCalled =>
      by_cases hc : s.closed
      · simp only [relayStep, if_pos hc]
        exact h
      · simp only [relayStep, if_neg hc]
        simp
  | closeCalled => simp [relayStep]
  | socketOpen => simp [relayStep]
  | socketClose =>
      simp only [relayStep, scheduleReconnect]
      split <;> simp
  | peerConnected => simp [relayStep]
  | peerDisconnected => simp [relayStep]
  | keyExchange k => simp [relayStep]
  | encryptedFrame env =>
      cases hk : s.phonePublicKey with
      | none =>
          simp only [relayStep, hk]
          intro hp
          exact absurd hk (h hp)
      | some k =>
          cases hd : decrypt env k secretKey with
          | ok pt => simp only [relayStep, hk, hd]; intro hp; simp
          | error msg => simp only [relayStep, hk, hd]; intro hp; simp
  | unknownFrame => exact h

theorem foldl_paired_inv (secretKey : Nat) (events : List RelayEvent) :
    ∀ s : RelayClientState, (s.status = RelayStatus.paired → s.phonePublicKey ≠ none) →
      ((events.foldl (fun t e => (relayStep secretKey t e).1) s).status = RelayStatus.paired →
        (events.foldl (fun t e => (relayStep secretKey t e).1) s).phonePublicKey ≠ none) := by
  induction events with
  | nil => intro s h; exact h
  | cons e rest ih => intro s h; exact ih _ (relayStep_paired_inv secretKey s e h)

/-- C4: in every state reachable by any event sequence, `paired` implies the
peer public key is present, and every `peer_disconnected` event forces the
status to `waiting_for_peer` and clears the stored peer key. -/
theorem paired_invariant (secretKey : Nat) (events : List RelayEvent) :
    ((runRelay secretKey events).status = RelayStatus.paired →
       (runRelay secretKey events).phonePublicKey ≠ none) ∧
    ∀ s : RelayClientState,
      (relayStep secretKey s RelayEvent.peerDisconnected).1.status =
          RelayStatus.waiting_for_peer ∧
      (relayStep secretKey s RelayEvent.peerDisconnected).1.phonePublicKey = none := by
  constructor
  · exact foldl_paired_inv secretKey events initialRelayState (by simp [initialRelayState])
  · intro s
    exact ⟨rfl, rfl⟩

/-- Concrete instance of `paired_invariant`: after an open and a key
exchange the client is paired and indeed holds a peer key. -/
theorem paired_invariant_witness :
    (runRelay 0 [RelayEvent.socketOpen, RelayEvent.keyExchange 42]).phonePublicKey ≠ none :=
  (paired_invariant 0 [RelayEvent.socketOpen, RelayEvent.keyExchange 42]).1 (by decide)

/-- C5: an inbound encrypted frame that fails to decrypt, or that arrives
before any key exchange, is dropped: the step leaves the whole client
state (status, stored peer key, connection flags) unchanged and delivers
nothing; totality of `relayStep` models that no exception escapes the
handler. -/
theorem encrypted_frame_dropped (secretKey : Nat) (s : RelayClientState)
    (env : EncryptedEnvelope)
    (h : s.phonePublicKey = none ∨
         ∃ k msg, s.phonePublicKey = some k ∧ decrypt env k secretKey = Except.error msg) :
    relayStep secretKey s (RelayEvent.encryptedFrame env) = (s, []) := by
  rcases h with h | ⟨k, msg, hk, hd⟩
  · simp [relayStep, h]
  · simp [relayStep, hk, hd]

/-- Concrete instance of `encrypted_frame_dropped`: an encrypted frame
arriving before any key exchange leaves the initial state untouched. -/
theorem encrypted_frame_dropped_witness :
    relayStep 0 initialRelayState (RelayEvent.encryptedFrame ⟨[], []⟩) =
      (initialRelayState, []) :=
  encrypted_frame_dropped 0 initialRelayState ⟨[], []⟩ (Or.inl rfl)

theorem closeDelays_general (secretKey : Nat) (n : Nat) :
    ∀ s : RelayClientState, s.closed = false →
      closeDelays secretKey s n =
        List.iterate (fun d => min (d * 2) 30000) s.reconnectDelay n := by
  induction n with
  | zero => intro s h; rfl
  | succ n ih =>
      intro s h
      rw [closeDelays]
      simp only [relayStep, scheduleReconnect, h, if_false, Bool.false_eq_true,
        List.filterMap]
      rw [ih _ (by simp [relayStep, scheduleReconnect, h])]
      simp [relayStep, scheduleReconnect, h, List.iterate]

theorem doubleCap_step (k : Nat) :
    min (min (1000 * 2 ^ k) 30000 * 2) 30000 = min (1000 * 2 ^ (k + 1)) 30000 := by
  have h2 : (1000 : Nat) * 2 ^ (k + 1) = 1000 * 2 ^ k * 2 := by ring
  rw [h2]
  generalize 1000 * 2 ^ k = x
  omega

theorem iterate_doubleCap (n : Nat) :
    ∀ k : Nat, List.iterate (fun d => min (d * 2) 30000) (min (1000 * 2 ^ k) 30000) n =
      (List.range' k n).map (fun i => min (1000 * 2 ^ i) 30000) := by
  induction n with
  | zero => intro k; rfl
  | succ n ih =>
      intro k
      rw [List.range'_succ, List.iterate, List.map_cons]
      refine congrArg (min (1000 * 2 ^ k) 30000 :: ·) ?_
      rw [doubleCap_step k]
      exact ih (k + 1)

/-- C3: after any successful socket open the reconnect delay is reset to
1000 ms, and the delays scheduled by `n` consecutive failures thereafter
are `min (1000 * 2 ^ i) 30000` milliseconds for `i = 0, 1, ...` (the
`N`-th consecutive attempt, `N = i + 1`, waits `min (1 * 2 ^ (N - 1), 30)`
seconds). -/
theorem reconnect_backoff (secretKey : Nat) (s : RelayClientState) (n : Nat)
    (h : s.closed = false) :
    (relayStep secretKey s RelayEvent.socketOpen).1.reconnectDelay = 1000 ∧
    closeDelays secretKey (relayStep secretKey s RelayEvent.socketOpen).1 n =
      (List.range n).map (fun i => min (1000 * 2 ^ i) 30000) := by
  refine ⟨rfl, ?_⟩
  rw [closeDelays_general secretKey n _ (by simp [relayStep, h])]
  have h0 : (relayStep secretKey s RelayEvent.socketOpen).1.reconnectDelay =
      min (1000 * 2 ^ 0) 30000 := by simp [relayStep]
  rw [h0, iterate_doubleCap n 0, ← List.range_eq_range']

/-- Concrete instance of `reconnect_backoff`: the first seven delays after
an open are 1, 2, 4, 8, 16, 30, 30 seconds. -/
theorem reconnect_backoff_witness :
    (relayStep 0 initialRelayState RelayEvent.socketOpen).1.reconnectDelay = 1000 ∧
    closeDelays 0 (relayStep 0 initialRelayState RelayEvent.socketOpen).1 7 =
      [1000, 2000, 4000, 8000, 16000, 30000, 30000] := by
  have h := reconnect_backoff 0 initialRelayState 7 rfl
  refine ⟨h.1, ?_⟩
  rw [h.2]
  decide

end Relay

namespace Session

theorem chunkLoop_ne_nil (rest : List Char) (idx : Nat) (h : rest ≠ []) :
    chunkLoop rest idx ≠ [] := by
  rw [chunkLoop]
  split
  · next h0 => exact absurd (List.length_eq_zero.mp h0) h
  · split <;> simp

theorem chunkLoop_flatten (rest : List Char) (idx : Nat) :
    ((chunkLoop rest idx).map ToolResultChunk.content).flatten = rest := by
  induction rest, idx using chunkLoop.induct with
  | case1 rest idx h0 =>
      rw [chunkLoop, if_pos h0]
      simp [List.length_eq_zero.mp h0]
  | case2 rest idx h0 h1 =>
      rw [chunkLoop, if_neg h0, if_pos h1]
      simp
  | case3 rest idx h0 h1 ih =>
      rw [chunkLoop, if_neg h0, if_neg h1]
      simp only [List.map_cons, List.flatten_cons]
      rw [ih]
      exact List.take_append_drop _ _

theorem chunkLoop_indices (rest : List Char) (idx : Nat) :
    (chunkLoop rest idx).map ToolResultChunk.chunkIndex =
      List.range' idx (chunkLoop rest idx).length := by
  induction rest, idx using chunkLoop.induct with
  | case1 rest idx h0 =>
      rw [chunkLoop, if_pos h0]
      rfl
  | case2 rest idx h0 h1 =>
      rw [chunkLoop, if_neg h0, if_pos h1]
      rfl
  | case3 rest idx h0 h1 ih =>
      rw [chunkLoop, if_neg h0, if_neg h1]
      simp only [List.map_cons, List.length_cons]
      rw [ih, List.range'_succ]

theorem chunkLoop_done (rest : List Char) (idx : Nat) (h : rest ≠ []) :
    (chunkLoop rest idx).map ToolResultChunk.done =
      List.replicate ((chunkLoop rest idx).length - 1) false ++ [true] := by
  induction rest, idx using chunkLoop.induct with
  | case1 rest idx h0 =>
      exact absurd (List.length_eq_zero.mp h0) h
  | case2 rest idx h0 h1 =>
      rw [chunkLoop, if_neg h0, if_pos h1]
      rfl
  | case3 rest idx h0 h1 ih =>
      have hne : rest.drop CHUNK_SIZE ≠ [] := by
        intro he
        have := congrArg List.length he
        simp only [List.length_drop, List.length_nil] at this
        omega
      have hlen : chunkLoop (rest.drop CHUNK_SIZE) (idx + 1) ≠ [] :=
        chunkLoop_ne_nil _ _ hne
      rw [chunkLoop, if_neg h0, if_neg h1]
      simp only [List.map_cons, List.length_cons]
      rw [ih hne]
      have hpos : 1 ≤ (chunkLoop (rest.drop CHUNK_SIZE) (idx + 1)).length :=
        Nat.one_le_iff_ne_zero.mpr (fun he => hlen (List.length_eq_zero.mp he))
      rw [Nat.add_sub_cancel]
      have hrep : (chunkLoop (rest.drop CHUNK_SIZE) (idx + 1)).length =
          ((chunkLoop (rest.drop CHUNK_SIZE) (idx + 1)).length - 1) + 1 := by omega
      rw [hrep, List.replicate_succ, List.cons_append]
      rw [← hrep]

/-- C1: tool-result output longer than the 500-character threshold is
emitted as a sequence of chunk messages whose indices are `0, 1, 2, ...`,
whose contents concatenate in index order to exactly the original output,
and whose `done` flag is true on the last chunk only; output of at most
the threshold is sent whole as a single `tool_result` message. -/
theorem tool_result_chunking (output : List Char) :
    (CHUNK_THRESHOLD < output.length →
        emitToolResult output = (chunkLoop output 0).map ToolResultMessage.chunk ∧
        ((chunkLoop output 0).map ToolResultChunk.content).flatten = output ∧
        (chunkLoop output 0).map ToolResultChunk.chunkIndex =
          List.range (chunkLoop output 0).length ∧
        (chunkLoop output 0).map ToolResultChunk.done =
          List.replicate ((chunkLoop output 0).length - 1) false ++ [true]) ∧
    (output.length ≤ CHUNK_THRESHOLD →
        emitToolResult output = [ToolResultMessage.whole output]) := by
  constructor
  · intro h
    have hne : output ≠ [] := by
      intro he
      rw [he] at h
      simp [CHUNK_THRESHOLD] at h
    refine ⟨?_, chunkLoop_flatten output 0, ?_, chunkLoop_done output 0 hne⟩
    · rw [emitToolResult, if_pos h]
    · rw [chunkLoop_indices, List.range_eq_range']
  · intro h
    rw [emitToolResult, if_neg (by omega)]

/-- Concrete instance of `tool_result_chunking`: a 501-character output is
rejoined losslessly from its chunks and only the final chunk carries the
completion flag. -/
theorem tool_result_chunking_witness :
    ((chunkLoop (List.replicate 501 'a') 0).map ToolResultChunk.content).flatten =
        List.replicate 501 'a' ∧
    (chunkLoop (List.replicate 501 'a') 0).map ToolResultChunk.done =
      List.replicate ((chunkLoop (List.replicate 501 'a') 0).length - 1) false ++ [true] := by
  have h := (tool_result_chunking (List.replicate 501 'a')).1
    (by rw [List.length_replicate]; decide)
  exact ⟨h.2.1, h.2.2.2⟩

theorem applyOp_stoppedTasks (s : SessionState) (op : SessionOp) :
    ∃ l, (applyOp s op).stoppedTasks = s.stoppedTasks ++ l := by
  cases op with
  | ask =>
      refine ⟨[], ?_⟩
      cases hs : s.sessionId <;> simp [applyOp, askQuestion, hs]
  | resolve qid ans =>
      refine ⟨[], ?_⟩
      by_cases hq : qid ∈ s.pendingQuestions
      · cases hs : s.sessionId <;> simp [applyOp, resolveQuestion, hq, hs]
      · simp [applyOp, resolveQuestion, hq]
  | stop t =>
      by_cases ht : t ∈ s.stoppedTasks
      · exact ⟨[], by simp [applyOp, stopTask, ht]⟩
      · by_cases ha : s.activeQuery = false
        · exact ⟨[t], by simp [applyOp, stopTask, ht, ha]⟩
        · exact ⟨[t], by simp [applyOp, stopTask, ht, ha]⟩
  | inject txt =>
      refine ⟨[], ?_⟩
      by_cases hc : s.activeQuery = false ∨ s.isRunning = false
      · simp [applyOp, injectMessage, hc]
      · cases hs : s.sessionId <;> simp [applyOp, injectMessage, hc, hs]
  | agentMsg m =>
      refine ⟨[], ?_⟩
      cases m <;> cases hs : s.sessionId <;>
        simp [applyOp, processMessage, appendIfSession, hs]
  | noteTaskMapping a t => exact ⟨[], by simp [applyOp]⟩
  | dropTaskMapping a => exact ⟨[], by simp [applyOp]⟩
  | beginQuery => exact ⟨[], by simp [applyOp]⟩
  | endQuery => exact ⟨[], by simp [applyOp]⟩

theorem foldl_stopped_mono (ops : List SessionOp) :
    ∀ (s : SessionState) (t : String), t ∈ s.stoppedTasks →
      t ∈ (ops.foldl applyOp s).stoppedTasks := by
  induction ops with
  | nil => intro s t h; exact h
  | cons op rest ih =>
      intro s t h
      obtain ⟨l, hl⟩ := applyOp_stoppedTasks s op
      exact ih (applyOp s op) t (by rw [hl]; exact List.mem_append_left _ h)

/-- C7: the first `stopTask` call for a task id while a query is active
issues exactly one SDK cancellation, for the reverse-translated id; the id
is recorded as stopped, stays recorded across every later session
operation, and any later `stopTask` call for the same id on any state that
records it is silently dropped. -/
theorem stopTask_dedup (s : SessionState) (taskId : String)
    (h1 : taskId ∉ s.stoppedTasks) (h2 : s.activeQuery = true) :
    (stopTask s taskId).2 =
        [SessionOut.sdkStopTask (reverseLookupTaskId s.taskIdToToolUseId taskId)] ∧
    taskId ∈ (stopTask s taskId).1.stoppedTasks ∧
    (∀ ops : List SessionOp,
        taskId ∈ (ops.foldl applyOp (stopTask s taskId).1).stoppedTasks) ∧
    (∀ s' : SessionState, taskId ∈ s'.stoppedTasks → stopTask s' taskId = (s', [])) := by
  have hmem : taskId ∈ (stopTask s taskId).1.stoppedTasks := by
    simp [stopTask, h1, h2]
  refine ⟨?_, hmem, fun ops => foldl_stopped_mono ops _ _ hmem, ?_⟩
  · simp [stopTask, h1, h2]
  · intro s' h'
    simp [stopTask, h']

/-- Concrete instance of `stopTask_dedup`: with an active query and the
mapping `agent1 ↦ tool1`, stopping `tool1` issues one cancellation for
`agent1`, and a second stop of `tool1` is dropped. -/
theorem stopTask_dedup_witness :
    (stopTask { initialSessionState with
        activeQuery := true,
        taskIdToToolUseId := [("agent1", "tool1")] } "tool1").2 =
      [SessionOut.sdkStopTask "agent1"] ∧
    stopTask (stopTask { initialSessionState with
        activeQuery := true,
        taskIdToToolUseId := [("agent1", "tool1")] } "tool1").1 "tool1" =
      ((stopTask { initialSessionState with
          activeQuery := true,
          taskIdToToolUseId := [("agent1", "tool1")] } "tool1").1, []) := by
  have h := stopTask_dedup { initialSessionState with
      activeQuery := true,
      taskIdToToolUseId := [("agent1", "tool1")] } "tool1" (by decide) rfl
  refine ⟨?_, h.2.2.2 _ h.2.1⟩
  rw [h.1]
  decide

theorem applyOp_question_inv (s : SessionState) (op : SessionOp)
    (h1 : s.pendingQuestions.Nodup)
    (h2 : ∀ q ∈ s.pendingQuestions, q ≤ s.questionCounter)
    (h3 : s.sessionId = none → s.history = []) :
    (applyOp s op).pendingQuestions.Nodup ∧
    (∀ q ∈ (applyOp s op).pendingQuestions, q ≤ (applyOp s op).questionCounter) ∧
    ((applyOp s op).sessionId = none → (applyOp s op).history = []) := by
  cases op with
  | ask =>
      have hfresh : s.questionCounter + 1 ∉ s.pendingQuestions := fun hm => by
        have := h2 _ hm
        omega
      have hnodup : (s.pendingQuestions ++ [s.questionCounter + 1]).Nodup := by
        rw [List.nodup_append]
        refine ⟨h1, List.nodup_singleton _, ?_⟩
        intro a ha hb
        rw [List.mem_singleton] at hb
        subst hb
        exact hfresh ha
      have hbound : ∀ q ∈ s.pendingQuestions ++ [s.questionCounter + 1],
          q ≤ s.questionCounter + 1 := by
        intro q hq
        rcases List.mem_append.mp hq with hq | hq
        · have := h2 _ hq
          omega
        · rw [List.mem_singleton] at hq
          omega
      cases hs : s.sessionId with
      | none =>
          refine ⟨?_, ?_, ?_⟩
          · simpa [applyOp, askQuestion, hs] using hnodup
          · simpa [applyOp, askQuestion, hs] using hbound
          · intro _
            simpa [applyOp, askQuestion, hs] using h3 hs
      | some sid =>
          refine ⟨?_, ?_, ?_⟩
          · simpa [applyOp, askQuestion, hs] using hnodup
          · simpa [applyOp, askQuestion, hs] using hbound
          · intro hc
            simp [applyOp, askQuestion, hs] at hc
  | resolve qid ans =>
      by_cases hq : qid ∈ s.pendingQuestions
      · have herase : ∀ q ∈ s.pendingQuestions.erase qid, q ≤ s.questionCounter :=
          fun q hmem => h2 q (List.mem_of_mem_erase hmem)
        cases hs : s.sessionId with
        | none =>
            refine ⟨?_, ?_, ?_⟩
            · simpa [applyOp, resolveQuestion, hq, hs] using h1.erase qid
            · simpa [applyOp, resolveQuestion, hq, hs] using herase
            · intro _
              simpa [applyOp, resolveQuestion, hq, hs] using h3 hs
        | some sid =>
            refine ⟨?_, ?_, ?_⟩
            · simpa [applyOp, resolveQuestion, hq, hs] using h1.erase qid
            · simpa [applyOp, resolveQuestion, hq, hs] using herase
            · intro hc
              simp [applyOp, resolveQuestion, hq, hs] at hc
      · simpa [applyOp, resolveQuestion, hq] using ⟨h1, h2, h3⟩
  | stop t =>
      by_cases ht : t ∈ s.stoppedTasks
      · simpa [applyOp, stopTask, ht] using ⟨h1, h2, h3⟩
      · by_cases ha : s.activeQuery = false <;>
          simpa [applyOp, stopTask, ht, ha] using ⟨h1, h2, h3⟩
  | inject txt =>
      by_cases hc : s.activeQuery = false ∨ s.isRunning = false
      · simpa [applyOp, injectMessage, hc] using ⟨h1, h2, h3⟩
      · cases hs : s.sessionId with
        | none => simpa [applyOp, injectMessage, hc, hs] using ⟨h1, h2, h3 hs⟩
        | some sid =>
            refine ⟨?_, ?_, ?_⟩
            · simpa [applyOp, injectMessage, hc, hs] using h1
            · simpa [applyOp, injectMessage, hc, hs] using h2
            · intro hcon
              simp [applyOp, injectMessage, hc, hs] at hcon
  | agentMsg m =>
      cases m <;> cases hs : s.sessionId <;>
        simp_all [applyOp, processMessage, appendIfSession, hs]
  | noteTaskMapping a t => simpa [applyOp] using ⟨h1, h2, h3⟩
  | dropTaskMapping a => simpa [applyOp] using ⟨h1, h2, h3⟩
  | beginQuery => simpa [applyOp] using ⟨h1, h2, h3⟩
  | endQuery => simpa [applyOp] using ⟨h1, h2, h3⟩

theorem foldl_question_inv (ops : List SessionOp) :
    ∀ s : SessionState,
      s.pendingQuestions.Nodup →
      (∀ q ∈ s.pendingQuestions, q ≤ s.questionCounter) →
      (s.sessionId = none → s.history = []) →
      (ops.foldl applyOp s).pendingQuestions.Nodup ∧
      (∀ q ∈ (ops.foldl applyOp s).pendingQuestions,
          q ≤ (ops.foldl applyOp s).questionCounter) ∧
      ((ops.foldl applyOp s).sessionId = none → (ops.foldl applyOp s).history = []) := by
  induction ops with
  | nil => intro s h1 h2 h3; exact ⟨h1, h2, h3⟩
  | cons op rest ih =>
      intro s h1 h2 h3
      obtain ⟨g1, g2, g3⟩ := applyOp_question_inv s op h1 h2 h3
      exact ih (applyOp s op) g1 g2 g3

theorem runOps_question_inv (ops : List SessionOp) :
    (runOps ops).pendingQuestions.Nodup ∧
    (∀ q ∈ (runOps ops).pendingQuestions, q ≤ (runOps ops).questionCounter) ∧
    ((runOps ops).sessionId = none → (runOps ops).history = []) :=
  foldl_question_inv ops initialSessionState (by simp [initialSessionState])
    (by simp [initialSessionState]) (by simp [initialSessionState])

/-- C6: in every reachable session state the pending-question table holds at
most one entry per question id; `resolveQuestion` with an unknown id is a
no-op that changes nothing and produces no effect, and with a known id it
invokes that question's callback exactly once, removes the entry, and
marks the corresponding persisted history entry answered. -/
theorem resolveQuestion_correct (ops : List SessionOp) (qid : Nat)
    (answers : List (String × String)) :
    (runOps ops).pendingQuestions.Nodup ∧
    (qid ∉ (runOps ops).pendingQuestions →
        resolveQuestion (runOps ops) qid answers = (runOps ops, [])) ∧
    (qid ∈ (runOps ops).pendingQuestions →
        (resolveQuestion (runOps ops) qid answers).2 =
            [SessionOut.invokeCallback qid answers] ∧
        (resolveQuestion (runOps ops) qid answers).1.pendingQuestions =
            (runOps ops).pendingQuestions.erase qid ∧
        qid ∉ (resolveQuestion (runOps ops) qid answers).1.pendingQuestions ∧
        (resolveQuestion (runOps ops) qid answers).1.history =
            Store.markQuestionAnswered (runOps ops).history qid) := by
  obtain ⟨h1, h2, h3⟩ := runOps_question_inv ops
  refine ⟨h1, ?_, ?_⟩
  · intro hq
    simp [resolveQuestion, hq]
  · intro hq
    cases hs : (runOps ops).sessionId with
    | none =>
        refine ⟨by simp [resolveQuestion, hq, hs], by simp [resolveQuestion, hq, hs],
          ?_, ?_⟩
        · simpa [resolveQuestion, hq, hs] using h1.not_mem_erase
        · rw [h3 hs]
          simp [resolveQuestion, hq, hs, Store.markQuestionAnswered, h3 hs]
    | some sid =>
        refine ⟨by simp [resolveQuestion, hq, hs], by simp [resolveQuestion, hq, hs],
          ?_, by simp [resolveQuestion, hq, hs]⟩
        simpa [resolveQuestion, hq, hs] using h1.not_mem_erase

/-- Concrete instance of `resolveQuestion_correct`: after one question is
asked, resolving id 1 invokes its callback once and removes it from the
table. -/
theorem resolveQuestion_correct_witness :
    (resolveQuestion (runOps [SessionOp.ask]) 1 [("q", "yes")]).2 =
        [SessionOut.invokeCallback 1 [("q", "yes")]] ∧
    1 ∉ (resolveQuestion (runOps [SessionOp.ask]) 1 [("q", "yes")]).1.pendingQuestions := by
  have h := (resolveQuestion_correct [SessionOp.ask] 1 [("q", "yes")]).2.2 (by decide)
  exact ⟨h.1, h.2.2.1⟩

/-- C8 counterexample: with a query active and running but the session id
not yet assigned (reachable in the window between `runQuery` starting and
the provider's init event), `injectMessage` writes nothing to the
persisted history, contradicting the claim that the text is always
appended while a query is running. -/
theorem injectMessage_history_cex :
    (injectMessage { initialSessionState with
        isRunning := true, activeQuery := true } ['h', 'i']).1.history ≠
      ({ initialSessionState with
          isRunning := true, activeQuery := true } : SessionState).history
        ++ [mkUserEntry ['h', 'i']] := by
  decide

/-- C8 (amended): `injectMessage` with no running query is a no-op with no
history write; with a running query the text is delivered to the in-flight
query as exactly one discrete user turn and, provided a session id has
been assigned, appended to the persisted history immediately (within the
injection step itself — result-event processing never writes it); while
running, the connection handler's prompt case injects instead of starting
a second query. -/
theorem injectMessage_correct (s : SessionState) (text : List Char) :
    (¬(s.activeQuery = true ∧ s.isRunning = true) → injectMessage s text = (s, [])) ∧
    (s.activeQuery = true → s.isRunning = true →
        (injectMessage s text).2 = [SessionOut.injectTurn text] ∧
        ∀ sid, s.sessionId = some sid →
          (injectMessage s text).1.history = s.history ++ [mkUserEntry text]) ∧
    (s.isRunning = true → handlePrompt s text = injectMessage s text) ∧
    (∀ c, (processMessage s (AgentMessage.resultMsg c)).1.history = s.history) := by
  refine ⟨?_, ?_, ?_, fun c => rfl⟩
  · intro h
    have hcond : s.activeQuery = false ∨ s.isRunning = false := by
      cases ha : s.activeQuery <;> cases hr : s.isRunning <;> simp_all
    simp [injectMessage, hcond]
  · intro ha hr
    have hcond : ¬(s.activeQuery = false ∨ s.isRunning = false) := by
      simp [ha, hr]
    constructor
    · cases hs : s.sessionId <;> simp [injectMessage, hcond, hs]
    · intro sid hsid
      simp [injectMessage, hcond, hsid]
  · intro hr
    simp [handlePrompt, hr]

/-- Concrete instance of `injectMessage_correct`: with a running query and
an assigned session id, injecting delivers one user turn and appends one
user history entry. -/
theorem injectMessage_correct_witness :
    (injectMessage { initialSessionState with
        isRunning := true, activeQuery := true,
        sessionId := some "abc" } ['h', 'i']).2 = [SessionOut.injectTurn ['h', 'i']] ∧
    (injectMessage { initialSessionState with
        isRunning := true, activeQuery := true,
        sessionId := some "abc" } ['h', 'i']).1.history =
      ({ initialSessionState with
          isRunning := true, activeQuery := true,
          sessionId := some "abc" } : SessionState).history ++ [mkUserEntry ['h', 'i']] := by
  have h := (injectMessage_correct { initialSessionState with
      isRunning := true, activeQuery := true,
      sessionId := some "abc" } ['h', 'i']).2.1 rfl rfl
  exact ⟨h.1, h.2 "abc" rfl⟩

theorem processMessage_no_error (s : SessionState) (m : AgentMessage) :
    (processMessage s m).2.filter isErrorEvent = [] := by
  cases m with
  | toolResultMsg id output =>
      simp only [processMessage, List.filter_map]
      have : (isErrorEvent ∘ SessionOut.toolResult id) = fun _ => false := by
        funext c
        rfl
      rw [this]
      simp
  | _ => simp [processMessage, isErrorEvent]

theorem processMessage_history (s : SessionState) (m : AgentMessage) :
    ∃ t, (processMessage s m).1.history = s.history ++ t := by
  cases m with
  | systemInit sid => exact ⟨[], by simp [processMessage]⟩
  | textDelta t => exact ⟨[], by simp [processMessage]⟩
  | assistantText t =>
      cases hs : s.sessionId with
      | none => exact ⟨[], by simp [processMessage, appendIfSession, hs]⟩
      | some sid =>
          exact ⟨[{ role := Store.Role.assistant, content := t }],
            by simp [processMessage, appendIfSession, hs]⟩
  | toolUse name id =>
      cases hs : s.sessionId with
      | none => exact ⟨[], by simp [processMessage, appendIfSession, hs]⟩
      | some sid =>
          exact ⟨[{ role := Store.Role.tool_call, content := [], toolUseId := some id }],
            by simp [processMessage, appendIfSession, hs]⟩
  | toolResultMsg id output =>
      cases hs : s.sessionId with
      | none => exact ⟨[], by simp [processMessage, appendIfSession, hs]⟩
      | some sid =>
          exact ⟨[{ role := Store.Role.tool_result, content := [], toolUseId := some id,
                    toolOutput := some output }],
            by simp [processMessage, appendIfSession, hs]⟩
  | resultMsg c => exact ⟨[], by simp [processMessage]⟩
  | otherMsg => exact ⟨[], by simp [processMessage]⟩

theorem processAll_no_error (msgs : List AgentMessage) :
    ∀ s : SessionState, (processAll s msgs).2.filter isErrorEvent = [] := by
  induction msgs with
  | nil => intro s; rfl
  | cons m rest ih =>
      intro s
      rw [processAll]
      simp only [List.filter_append, processMessage_no_error, ih, List.append_nil]

theorem processAll_history (msgs : List AgentMessage) :
    ∀ s : SessionState, ∃ t, (processAll s msgs).1.history = s.history ++ t := by
  induction msgs with
  | nil => intro s; exact ⟨[], by simp [processAll]⟩
  | cons m rest ih =>
      intro s
      obtain ⟨t1, h1⟩ := processMessage_history s m
      obtain ⟨t2, h2⟩ := ih (processMessage s m).1
      refine ⟨t1 ++ t2, ?_⟩
      rw [processAll]
      simp only []
      rw [h2, h1, List.append_assoc]

/-- C9: `runQuery` is a total function of the consumed stream prefix and
the surfaced error (never throws to its caller); when the stream errors,
the engine emits exactly one outward error event, returns to idle (running
flag cleared, active query cleared), and the history entries flushed
before the error are preserved (the final history extends the entry
history). -/
theorem runQuery_error_handling (s : SessionState) (messages : List AgentMessage)
    (e : String) :
    (runQuery s messages (some e)).1.isRunning = false ∧
    (runQuery s messages (some e)).1.activeQuery = false ∧
    (runQuery s messages (some e)).2.filter isErrorEvent = [SessionOut.errorEvent e] ∧
    ∃ t, (runQuery s messages (some e)).1.history = s.history ++ t := by
  refine ⟨rfl, rfl, ?_, ?_⟩
  · simp only [runQuery, List.filter_append, processAll_no_error, List.nil_append]
    rfl
  · obtain ⟨t, ht⟩ := processAll_history messages
      { s with isRunning := true, activeQuery := true, streamingText := [] }
    exact ⟨t, by simpa [runQuery] using ht⟩

end Session

namespace Store

theorem mem_resultIds (entries : List HistoryEntry) (id : String) :
    id ∈ resultIds entries ↔
      ∃ e ∈ entries, e.role = Role.tool_result ∧ e.toolUseId = some id ∧
        truthyId (some id) = true := by
  simp only [resultIds, List.mem_filterMap]
  constructor
  · rintro ⟨e, he, hf⟩
    split at hf
    · next hc =>
        simp only [Bool.and_eq_true, beq_iff_eq] at hc
        refine ⟨e, he, hc.1, hf, ?_⟩
        rw [← hf]
        exact hc.2
    · exact absurd hf (by simp)
  · rintro ⟨e, he, hrole, hid, htr⟩
    refine ⟨e, he, ?_⟩
    rw [if_pos, hid]
    simp only [Bool.and_eq_true, beq_iff_eq]
    exact ⟨hrole, by rw [hid]; exact htr⟩

theorem needsResult_false (entries : List HistoryEntry) (e : HistoryEntry)
    (h : e.role = Role.tool_call → truthyId e.toolUseId = true →
      ∃ e' ∈ entries, e'.role = Role.tool_result ∧ e'.toolUseId = e.toolUseId) :
    needsResult (resultIds entries) e = false := by
  by_cases hrole : e.role = Role.tool_call
  · by_cases htr : truthyId e.toolUseId = true
    · obtain ⟨e', he', hrole', hid'⟩ := h hrole htr
      cases hid : e.toolUseId with
      | none => rw [hid] at htr; simp [truthyId] at htr
      | some id =>
          have hmem : id ∈ resultIds entries := by
            rw [mem_resultIds]
            exact ⟨e', he', hrole', by rw [hid', hid], by rw [← hid]; exact htr⟩
          have hc : (resultIds entries).contains id = true := List.elem_iff.mpr hmem
          simp only [needsResult, hid, Option.getD_some, hc, Bool.not_true, Bool.and_false]
    · simp [needsResult, Bool.eq_false_iff.mpr htr]
  · simp [needsResult, hrole]

/-- C10: after the per-file cleanup, every `tool_call` entry with a (truthy)
tool-use id has a `tool_result` entry with the same id; the original
entries are preserved unchanged, in order, as a prefix, with only
synthesized empty results appended at the end; and a file already
satisfying the property is left unmodified (the modified flag stays
false). -/
theorem cleanupPendingToolCalls_correct (entries : List HistoryEntry) :
    (∀ e ∈ (cleanupEntries entries).1, e.role = Role.tool_call →
        truthyId e.toolUseId = true →
        ∃ e' ∈ (cleanupEntries entries).1,
          e'.role = Role.tool_result ∧ e'.toolUseId = e.toolUseId) ∧
    (∃ extra, (cleanupEntries entries).1 = entries ++ extra ∧
        ∀ x ∈ extra, x.role = Role.tool_result ∧ x.content = [] ∧
          x.toolOutput = some []) ∧
    ((∀ e ∈ entries, e.role = Role.tool_call → truthyId e.toolUseId = true →
        ∃ e' ∈ entries, e'.role = Role.tool_result ∧ e'.toolUseId = e.toolUseId) →
      cleanupEntries entries = (entries, false)) := by
  refine ⟨?_, ?_, ?_⟩
  · intro e he hrole htr
    rw [cleanupEntries] at he
    simp only [List.mem_append] at he
    rcases he with he | he
    · cases hid : e.toolUseId with
      | none => rw [hid] at htr; simp [truthyId] at htr
      | some id =>
          by_cases hmem : id ∈ resultIds entries
          · rw [mem_resultIds] at hmem
            obtain ⟨e', he', hrole', hid', _⟩ := hmem
            exact ⟨e', by rw [cleanupEntries]; exact List.mem_append_left _ he',
              hrole', hid'⟩
          · have htr' : truthyId (some id) = true := by rw [← hid]; exact htr
            have hcont : (resultIds entries).contains id = false := by
              cases hcase : (resultIds entries).contains id
              · rfl
              · exact absurd (List.elem_iff.mp hcase) hmem
            have hneed : needsResult (resultIds entries) e = true := by
              simp [needsResult, hid, hrole, htr', hcont]
              exact hmem
            refine ⟨synthResult id, ?_, rfl, rfl⟩
            rw [cleanupEntries]
            refine List.mem_append_right _ ?_
            exact List.mem_map_of_mem synthResult
              (List.mem_filterMap.mpr ⟨e, List.mem_filter.mpr ⟨he, hneed⟩, hid⟩)
    · obtain ⟨id, hid, he2⟩ := List.mem_map.mp he
      rw [← he2] at hrole
      simp [synthResult] at hrole
  · refine ⟨_, rfl, ?_⟩
    intro x hx
    obtain ⟨id, hid, hx2⟩ := List.mem_map.mp hx
    rw [← hx2]
    exact ⟨rfl, rfl, rfl⟩
  · intro hsat
    have hall : entries.filter (needsResult (resultIds entries)) = [] := by
      rw [List.filter_eq_nil_iff]
      intro e he
      rw [needsResult_false entries e (hsat e he)]
      simp
    rw [cleanupEntries, hall]
    simp

/-- Concrete instance of `cleanupPendingToolCalls_correct`: a history whose
only tool call already has a matching result is left unmodified with the
modified flag false. -/
theorem cleanupPendingToolCalls_witness :
    cleanupEntries
        [{ role := Role.tool_call, content := [], toolUseId := some "t1" },
         { role := Role.tool_result, content := [], toolUseId := some "t1" }] =
      ([{ role := Role.tool_call, content := [], toolUseId := some "t1" },
        { role := Role.tool_result, content := [], toolUseId := some "t1" }], false) :=
  (cleanupPendingToolCalls_correct
    [{ role := Role.tool_call, content := [], toolUseId := some "t1" },
     { role := Role.tool_result, content := [], toolUseId := some "t1" }]).2.2 (by decide)

end Store
